import Mathlib

/-!
Verification of the `simple-cache` filesystem cache (`src/implementations/fs_cache.rs`)
against its natural-language specification.

The cache directory is modelled as a flat association list from file names to
file contents.  I/O faults (permissions, disk full) are outside the model: reads
of existing files and writes always succeed, while reading or removing a missing
file fails with a NotFound error, and unparseable data yields an InvalidData
error, mirroring the `std::io::ErrorKind` values the Rust code produces.
Wall-clock time (`Utc::now()`) is passed explicitly as an integer UNIX
timestamp in seconds.
-/

set_option autoImplicit false

namespace SimpleCache

/-- The two `std::io::ErrorKind`s the cache code can produce in the modelled
(fault-free) filesystem: `NotFound` from reading or removing a missing file, and
`InvalidData` from the `map_err` wrappers around parse/deserialize failures. -/
inductive IoError where
  | notFound
  | invalidData
  deriving DecidableEq, Repr

/-- The cache directory: a flat list of (file name, file content) pairs.
The list order models the (unspecified) `fs::read_dir` iteration order. -/
abbrev Fs : Type := List (String × String)

/-- Contents of file `n`, or `none` when no such file exists
(`fs::read_to_string` succeeds exactly on the `some` case). -/
def fsRead (fs : Fs) (n : String) : Option String :=
  (fs.find? (fun p => p.1 == n)).map Prod.snd

/-- Drop every pair whose name is `n`. -/
def fsErase (fs : Fs) (n : String) : Fs :=
  fs.filter (fun p => !(p.1 == n))

/-- `fs::remove_file`: fails with NotFound when the file is absent. -/
def fsRemove (fs : Fs) (n : String) : Option Fs :=
  if (fsRead fs n).isSome then some (fsErase fs n) else none

/-- `fs::write`: create or replace file `n` with content `s`. -/
def fsWrite (fs : Fs) (n s : String) : Fs :=
  fsErase fs n ++ [(n, s)]

/-- The decimal digit character for `d < 10`. -/
def digitChar (d : Nat) : Char :=
  Char.ofNat (48 + d)

/-- Numeric value of an ASCII decimal digit character. -/
def digitVal (c : Char) : Option Nat :=
  if c.isDigit then some (c.toNat - 48) else none

/-- Fold a big-endian digit-character list onto an accumulator; fails at the
first non-digit character. -/
def parseDigitsAux : List Char → Nat → Option Nat
  | [], acc => some acc
  | c :: cs, acc =>
    match digitVal c with
    | some d => parseDigitsAux cs (acc * 10 + d)
    | none => none

/-- Parse a non-empty string of decimal digits. -/
def parseDigits (cs : List Char) : Option Nat :=
  if cs.isEmpty then none else parseDigitsAux cs 0

/-- `i64::MAX`. -/
def i64Max : Nat := 9223372036854775807

/-- Character-list form of `str::parse::<i64>`: an optional sign followed by
one or more ASCII digits, rejecting anything else and values outside the `i64`
range. -/
def parseIntChars : List Char → Option Int
  | [] => none
  | c :: cs =>
    if c = '-' then
      (parseDigits cs).bind fun n =>
        if n ≤ 9223372036854775808 then some (-(n : Int)) else none
    else if c = '+' then
      (parseDigits cs).bind fun n =>
        if n ≤ i64Max then some ((n : Int)) else none
    else
      (parseDigits (c :: cs)).bind fun n =>
        if n ≤ i64Max then some ((n : Int)) else none

/-- Rust's `str::parse::<i64>` on a string. -/
def parseI64 (s : String) : Option Int :=
  parseIntChars s.toList

/-- Little-endian digit characters of `n`, with explicit fuel (`n` itself is
always enough fuel, since `n / 10 < n` for positive `n`). -/
def digitsRevAux : Nat → Nat → List Char
  | 0, _ => []
  | _ + 1, 0 => []
  | fuel + 1, n + 1 => digitChar ((n + 1) % 10) :: digitsRevAux fuel ((n + 1) / 10)

/-- Decimal rendering of a natural number (`u64::to_string`). -/
def natDecimal (n : Nat) : String :=
  if n = 0 then "0" else String.mk (digitsRevAux n n).reverse

/-- Decimal rendering of a signed integer (`i64::to_string`). -/
def intDecimal (i : Int) : String :=
  if i < 0 then "-" ++ natDecimal i.natAbs else natDecimal i.toNat

/-- Smallest timestamp `chrono::DateTime::from_timestamp` accepts
(midnight at `NaiveDate::MIN`, i.e. -262144-01-01, year `i32::MIN >> 13`). -/
def tsMin : Int := -8334632851200

/-- Largest timestamp `chrono::DateTime::from_timestamp` accepts
(23:59:59 at `NaiveDate::MAX`, year 262143). -/
def tsMax : Int := 8210298412799

/-- Whether `chrono::DateTime::from_timestamp ts 0` returns `Some`. -/
def tsInRange (ts : Int) : Bool :=
  decide (tsMin ≤ ts ∧ ts ≤ tsMax)

/-- The shared guard of `get` and `collect_garbage`:
`if let Some(expiry) = DateTime::from_timestamp(ts, 0) { expiry < Utc::now() }`.
Out-of-range timestamps are silently treated as not expired. -/
def tsPast (now ts : Int) : Bool :=
  tsInRange ts && decide (ts < now)

/-- Split a reversed file name at the last dot of the original name: returns
(reversed extension, reversed stem), or `none` when there is no dot or the stem
would be empty — mirroring `std::path::Path::extension`. -/
def extSplitRev : List Char → Option (List Char × List Char)
  | [] => none
  | c :: cs =>
    if c = '.' then
      if cs.isEmpty then none else some ([], cs)
    else
      match extSplitRev cs with
      | some (e, st) => some (c :: e, st)
      | none => none

/-- `Path::extension().and_then(|e| e.to_str())` for a flat file name. -/
def fileExtension (s : String) : Option String :=
  (extSplitRev s.toList.reverse).map fun p => String.mk p.1.reverse

/-- `Path::with_extension("")` for a flat file name: drop the extension
(with its dot) when there is one. -/
def removeExtension (s : String) : String :=
  match extSplitRev s.toList.reverse with
  | some (_, st) => String.mk st.reverse
  | none => s

/-- The pluggable structured-value codec (`serde_json` in the source): `encode`
is `serde_json::to_string` restricted to serializable values, `decode` is
`serde_json::from_str`, failing on bytes that do not parse at the type. -/
structure Codec (V : Type) where
  encode : V → String
  decode : String → Option V

/-- File name of a key's entry: the decimal string of its 64-bit hash
(`DefaultHasher::finish` is a `u64`). -/
def entryName {K : Type} (hashFn : K → Nat) (k : K) : String :=
  natDecimal (hashFn k % 18446744073709551616)

/-- File name of a key's expiry sidecar: `with_extension("expiry")` on the
dot-free decimal entry name appends `".expiry"`. -/
def expiryName {K : Type} (hashFn : K → Nat) (k : K) : String :=
  entryName hashFn k ++ ".expiry"

/-- `FsCache::set`: serialize, defensively remove any existing entry file,
write the entry file, and — only when a TTL is supplied — write
`(now + ttl).timestamp().to_string()` to the expiry file. -/
def set {K V : Type} (c : Codec V) (hashFn : K → Nat) (k : K) (v : V)
    (ttl : Option Nat) (now : Int) (fs : Fs) : Fs :=
  let value := c.encode v
  let n := entryName hashFn k
  let fs1 := if (fsRead fs n).isSome then fsErase fs n else fs
  let fs2 := fsWrite fs1 n value
  match ttl with
  | some d => fsWrite fs2 (expiryName hashFn k) (intDecimal (now + (d : Int)))
  | none => fs2

/-- `FsCache::get`: when the expiry file exists, parse it (InvalidData on parse
failure) and return `Ok(None)` when the timestamp is valid and past; otherwise
read the entry file (NotFound when absent) and deserialize it (InvalidData on
failure). -/
def get {K V : Type} (c : Codec V) (hashFn : K → Nat) (k : K)
    (now : Int) (fs : Fs) : Except IoError (Option V) :=
  let n := entryName hashFn k
  let readEntry : Except IoError (Option V) :=
    match fsRead fs n with
    | none => .error .notFound
    | some value =>
      match c.decode value with
      | some v => .ok (some v)
      | none => .error .invalidData
  match fsRead fs (expiryName hashFn k) with
  | none => readEntry
  | some content =>
    match parseI64 content with
    | none => .error .invalidData
    | some ts => if tsPast now ts then .ok none else readEntry

/-- `FsCache::invalidate`: unconditionally write `0.to_string()` to the key's
expiry file. -/
def invalidate {K : Type} (hashFn : K → Nat) (k : K) (fs : Fs) : Fs :=
  fsWrite fs (expiryName hashFn k) (natDecimal 0)

/-- One pass of the `collect_garbage` loop over the snapshot of directory entry
names, threading the evolving directory.  For each name carrying the `expiry`
extension: read it (the `?` aborts the sweep on error), parse it (InvalidData
aborts), and when the timestamp is valid and past, remove the entry file
(`with_extension("")`) and then the expiry file, either `?` aborting with
NotFound.  The pair returned is (directory after the sweep, error if any) —
deletions made before an abort persist, as they do on a real disk. -/
def cgGo (now : Int) : List String → Fs → Fs × Option IoError
  | [], fs => (fs, none)
  | n :: rest, fs =>
    if fileExtension n = some "expiry" then
      match fsRead fs n with
      | none => (fs, some .notFound)
      | some s =>
        match parseI64 s with
        | none => (fs, some .invalidData)
        | some ts =>
          if tsPast now ts then
            match fsRemove fs (removeExtension n) with
            | none => (fs, some .notFound)
            | some fs1 =>
              match fsRemove fs1 n with
              | none => (fs1, some .notFound)
              | some fs2 => cgGo now rest fs2
          else cgGo now rest fs
    else cgGo now rest fs

/-- `FsCache::collect_garbage`: sweep every name in the directory listing. -/
def collect_garbage (now : Int) (fs : Fs) : Fs × Option IoError :=
  cgGo now (fs.map Prod.fst) fs

/-- Whether the content of an expiry file makes the sweep delete its pair:
the timestamp parses, is representable for `chrono`, and is in the past. -/
def sweepTriggers (now : Int) (s : String) : Bool :=
  match parseI64 s with
  | some ts => tsPast now ts
  | none => false

/-- Which file names a successful sweep over listing `ns` deletes, reading
expiry contents from `acc`: the expiry files that trigger, and their stems. -/
def shouldDel (now : Int) (ns : List String) (acc : Fs) (tgt : String) : Bool :=
  ns.any fun m =>
    decide (fileExtension m = some "expiry") &&
    (match fsRead acc m with
     | some s => sweepTriggers now s
     | none => false) &&
    (decide (m = tgt) || decide (removeExtension m = tgt))

/-- A concrete codec for sanity checks and witnesses: JSON booleans. -/
def boolCodec : Codec Bool where
  encode := fun b => if b then "true" else "false"
  decode := fun s => if s = "true" then some true else if s = "false" then some false else none

/-- The identity hash on naturals, standing in for `DefaultHasher` in
witnesses (the model is parametric in the hash function). -/
def idHash : Nat → Nat := fun n => n

example : parseI64 "0" = some 0 := by decide
example : parseI64 "-42" = some (-42) := by decide
example : parseI64 "9223372036854775807" = some 9223372036854775807 := by decide
example : parseI64 "bogus" = none := by decide
example : natDecimal 1234 = "1234" := by decide
example : intDecimal (-7) = "-7" := by decide
example : fileExtension "123.expiry" = some "expiry" := by decide
example : fileExtension "123" = none := by decide
example : fileExtension ".expiry" = none := by decide
example : removeExtension "123.expiry" = "123" := by decide
example : tsInRange 9223372036854775807 = false := by decide
example : entryName idHash 5 = "5" := by rfl
example : get boolCodec idHash 5 100 [] = .error .notFound := by rfl
example : get boolCodec idHash 5 100 (set boolCodec idHash 5 true none 100 []) = .ok (some true) := by rfl

theorem fsRead_nil (n : String) : fsRead [] n = none := rfl

theorem fsRead_cons (p : String × String) (fs : Fs) (n : String) :
    fsRead (p :: fs) n = if p.1 = n then some p.2 else fsRead fs n := by
  by_cases h : p.1 = n <;> simp [fsRead, List.find?_cons, h]

theorem fsRead_fsErase (fs : Fs) (a b : String) :
    fsRead (fsErase fs a) b = if b = a then none else fsRead fs b := by
  induction fs with
  | nil =>
    simp only [fsErase, List.filter_nil, fsRead_nil]
    split <;> rfl
  | cons p fs ih =>
    by_cases h1 : p.1 = a
    · have hb : fsErase (p :: fs) a = fsErase fs a := by
        simp [fsErase, List.filter_cons, h1]
      rw [hb, ih]
      by_cases h2 : b = a
      · simp [h2]
      · rw [if_neg h2, if_neg h2, fsRead_cons,
          if_neg (show ¬ p.1 = b from h1 ▸ fun hh => h2 hh.symm)]
    · have hb : fsErase (p :: fs) a = p :: fsErase fs a := by
        simp [fsErase, List.filter_cons, h1]
      rw [hb, fsRead_cons, ih, fsRead_cons]
      by_cases h2 : p.1 = b
      · have hba : ¬ b = a := fun hba => h1 (by rw [h2, hba])
        simp [h2, hba]
      · simp [h2]

theorem fsRead_append (fs1 fs2 : Fs) (b : String) :
    fsRead (fs1 ++ fs2) b = (fsRead fs1 b).or (fsRead fs2 b) := by
  induction fs1 with
  | nil => simp [fsRead_nil]
  | cons p fs1 ih =>
    rw [List.cons_append, fsRead_cons, fsRead_cons]
    by_cases h : p.1 = b <;> simp [h, ih]

theorem fsRead_fsWrite (fs : Fs) (a s b : String) :
    fsRead (fsWrite fs a s) b = if b = a then some s else fsRead fs b := by
  rw [fsWrite, fsRead_append, fsRead_fsErase]
  by_cases h : b = a
  · simp [h, fsRead_cons]
  · rw [if_neg h, if_neg h, fsRead_cons,
      if_neg (show ¬ a = b from fun hh => h hh.symm), fsRead_nil, Option.or_none]

theorem fsRemove_eq_some {fs : Fs} {a : String} (h : (fsRead fs a).isSome) :
    fsRemove fs a = some (fsErase fs a) := by
  simp [fsRemove, h]

theorem fsRemove_eq_none {fs : Fs} {a : String} (h : fsRead fs a = none) :
    fsRemove fs a = none := by
  simp [fsRemove, h]

theorem fsErase_keys_sublist (fs : Fs) (a : String) :
    ((fsErase fs a).map Prod.fst).Sublist (fs.map Prod.fst) :=
  (List.filter_sublist fs).map Prod.fst

theorem nodup_fsErase {fs : Fs} (a : String) (h : (fs.map Prod.fst).Nodup) :
    ((fsErase fs a).map Prod.fst).Nodup :=
  (fsErase_keys_sublist fs a).nodup h

theorem fsRead_eq_some_of_mem {fs : Fs} (hnd : (fs.map Prod.fst).Nodup)
    {n s : String} (hm : (n, s) ∈ fs) : fsRead fs n = some s := by
  induction fs with
  | nil => cases hm
  | cons p fs ih =>
    rw [List.map_cons, List.nodup_cons] at hnd
    rcases List.mem_cons.1 hm with h | h
    · rw [← h, fsRead_cons, if_pos rfl]
    · have hp1 : p.1 ≠ n := fun he => hnd.1 (he ▸ List.mem_map_of_mem Prod.fst h)
      rw [fsRead_cons, if_neg hp1]
      exact ih hnd.2 h

theorem mem_of_fsRead_eq_some {fs : Fs} {n s : String}
    (h : fsRead fs n = some s) : (n, s) ∈ fs := by
  rw [fsRead] at h
  rcases Option.map_eq_some'.1 h with ⟨p, hp, hs⟩
  have hmem := List.mem_of_find?_eq_some hp
  have hpred := List.find?_some hp
  have h1 : p.1 = n := by simpa using hpred
  have : p = (n, s) := by
    cases p
    simp only at h1 hs
    rw [h1, hs]
  exact this ▸ hmem

theorem self_ne_append_expiry (s : String) : s ≠ s ++ ".expiry" := by
  intro h
  have hl := congrArg String.length h
  rw [String.length_append] at hl
  have h7 : (".expiry" : String).length = 7 := rfl
  omega

theorem append_expiry_inj {a b : String} (h : a ++ ".expiry" = b ++ ".expiry") :
    a = b := by
  apply String.ext
  have hd := congrArg String.data h
  rw [String.data_append, String.data_append] at hd
  exact List.append_cancel_right hd

theorem extSplitRev_some {rs e st : List Char} (h : extSplitRev rs = some (e, st)) :
    rs = e ++ '.' :: st ∧ st ≠ [] := by
  induction rs generalizing e st with
  | nil => cases h
  | cons c cs ih =>
    by_cases hc : c = '.'
    · rw [extSplitRev, if_pos hc] at h
      by_cases he : cs.isEmpty
      · rw [if_pos he] at h; cases h
      · rw [if_neg he] at h
        cases h
        refine ⟨by rw [hc]; rfl, ?_⟩
        intro hnil
        exact he (by rw [hnil]; rfl)
    · rw [extSplitRev, if_neg hc] at h
      cases hcs : extSplitRev cs with
      | none => rw [hcs] at h; cases h
      | some p =>
        rw [hcs] at h
        cases p with
        | mk e1 st1 =>
          simp only at h
          cases h
          obtain ⟨h1, h2⟩ := ih hcs
          exact ⟨by rw [h1]; rfl, h2⟩

theorem extSplitRev_no_dot {pre tail : List Char} (hpre : '.' ∉ pre)
    (htail : tail ≠ []) : extSplitRev (pre ++ '.' :: tail) = some (pre, tail) := by
  induction pre with
  | nil =>
    rw [List.nil_append, extSplitRev, if_pos rfl,
      if_neg (fun he => htail (List.isEmpty_iff.1 he))]
  | cons c pre ih =>
    have hc : c ≠ '.' := fun hh => hpre (hh ▸ List.mem_cons_self c pre)
    rw [List.cons_append, extSplitRev, if_neg hc,
      ih (fun hm => hpre (List.mem_cons_of_mem c hm))]

theorem fileExtension_append_expiry {n : String} (hn : n ≠ "") :
    fileExtension (n ++ ".expiry") = some "expiry" ∧
      removeExtension (n ++ ".expiry") = n := by
  have hdata : n.data ≠ [] := fun hd => hn (String.ext hd)
  have hrev : (n ++ ".expiry").toList.reverse =
      ['y', 'r', 'i', 'p', 'x', 'e'] ++ '.' :: n.data.reverse := by
    show ((n ++ ".expiry").data).reverse = _
    rw [String.data_append]
    rw [show (".expiry" : String).data = ['.', 'e', 'x', 'p', 'i', 'r', 'y'] from rfl]
    rw [List.reverse_append]
    rfl
  have hsplit : extSplitRev (n ++ ".expiry").toList.reverse =
      some (['y', 'r', 'i', 'p', 'x', 'e'], n.data.reverse) := by
    rw [hrev]
    exact extSplitRev_no_dot (by decide) (by simpa using hdata)
  constructor
  · rw [fileExtension, hsplit]
    rfl
  · rw [removeExtension, hsplit]
    show String.mk n.data.reverse.reverse = n
    rw [List.reverse_reverse]

theorem fileExtension_expiry_decomp {m : String}
    (h : fileExtension m = some "expiry") :
    m = removeExtension m ++ ".expiry" := by
  rw [fileExtension] at h
  cases heq : extSplitRev m.toList.reverse with
  | none => rw [heq] at h; cases h
  | some p =>
    rw [heq] at h
    cases p with
    | mk e st =>
      simp only [Option.map_some'] at h
      have he : e.reverse = ('e' :: 'x' :: 'p' :: 'i' :: 'r' :: 'y' :: []) := by
        have := congrArg String.data (Option.some.inj h)
        simpa using this
      obtain ⟨hrs, _⟩ := extSplitRev_some heq
      have hm : m.data = st.reverse ++ ['.'] ++ e.reverse := by
        have := congrArg List.reverse hrs
        rw [List.reverse_reverse] at this
        rw [show (m.toList = m.data) from rfl] at this
        rw [this, List.reverse_append, List.reverse_cons, List.append_assoc]
      apply String.ext
      have hrm : removeExtension m = String.mk st.reverse := by
        rw [removeExtension, heq]
      rw [hrm, String.data_append, hm, he, List.append_assoc]
      rfl

theorem removeExtension_inj_on_expiry {m1 m2 : String}
    (h1 : fileExtension m1 = some "expiry") (h2 : fileExtension m2 = some "expiry")
    (he : removeExtension m1 = removeExtension m2) : m1 = m2 := by
  rw [fileExtension_expiry_decomp h1, fileExtension_expiry_decomp h2, he]

theorem digitVal_digitChar {d : Nat} (h : d < 10) :
    digitVal (digitChar d) = some d := by
  interval_cases d <;> decide

theorem digitChar_ne_sign {d : Nat} (h : d < 10) :
    digitChar d ≠ '-' ∧ digitChar d ≠ '+' := by
  interval_cases d <;> exact ⟨by decide, by decide⟩

theorem parseDigitsAux_append (l1 l2 : List Char) (acc : Nat) :
    parseDigitsAux (l1 ++ l2) acc =
      match parseDigitsAux l1 acc with
      | some a => parseDigitsAux l2 a
      | none => none := by
  induction l1 generalizing acc with
  | nil => rfl
  | cons c l1 ih =>
    rw [List.cons_append, parseDigitsAux]
    cases hd : digitVal c with
    | none => simp [parseDigitsAux, hd]
    | some d => simp only [parseDigitsAux, hd, ih]

theorem digitsRevAux_zero (fuel : Nat) : digitsRevAux fuel 0 = [] := by
  cases fuel <;> rfl

theorem mem_digitsRevAux {c : Char} {fuel n : Nat} (h : c ∈ digitsRevAux fuel n) :
    ∃ d, d < 10 ∧ c = digitChar d := by
  induction fuel generalizing n with
  | zero => cases h
  | succ f ih =>
    cases n with
    | zero => cases h
    | succ m =>
      rw [digitsRevAux] at h
      rcases List.mem_cons.1 h with h1 | h1
      · exact ⟨(m + 1) % 10, Nat.mod_lt _ (by omega), h1⟩
      · exact ih h1

theorem parseDigitsAux_digitsRevAux :
    ∀ fuel n acc, 0 < n → n ≤ fuel →
      parseDigitsAux ((digitsRevAux fuel n).reverse) acc =
        some (acc * 10 ^ (digitsRevAux fuel n).length + n) := by
  intro fuel
  induction fuel with
  | zero => intro n acc h1 h2; omega
  | succ f ih =>
    intro n acc h1 h2
    obtain ⟨m, rfl⟩ : ∃ m, n = m + 1 := ⟨n - 1, by omega⟩
    rw [digitsRevAux, List.reverse_cons, parseDigitsAux_append]
    by_cases hq : (m + 1) / 10 = 0
    · have hlt : m + 1 < 10 := by omega
      rw [hq, digitsRevAux_zero]
      show parseDigitsAux [digitChar ((m + 1) % 10)] acc = _
      rw [parseDigitsAux, digitVal_digitChar (Nat.mod_lt _ (by omega))]
      have hmod : (m + 1) % 10 = m + 1 := Nat.mod_eq_of_lt hlt
      simp only [parseDigitsAux, hmod]
      norm_num
    · have hle : (m + 1) / 10 ≤ f := by
        have := Nat.div_lt_self (show 0 < m + 1 by omega) (show 1 < 10 by omega)
        omega
      rw [ih ((m + 1) / 10) acc (by omega) hle]
      show parseDigitsAux [digitChar ((m + 1) % 10)] _ = _
      rw [parseDigitsAux, digitVal_digitChar (Nat.mod_lt _ (by omega))]
      simp only [parseDigitsAux, List.length_cons]
      congr 1
      have hdm : 10 * ((m + 1) / 10) + (m + 1) % 10 = m + 1 := Nat.div_add_mod _ _
      rw [pow_succ]
      ring_nf
      omega

theorem digitsRevAux_ne_nil {f m : Nat} : digitsRevAux (f + 1) (m + 1) ≠ [] := by
  rw [digitsRevAux]
  exact List.cons_ne_nil _ _

theorem natDecimal_toList_eq {n : Nat} (h : n ≠ 0) :
    (natDecimal n).toList = (digitsRevAux n n).reverse := by
  rw [natDecimal, if_neg h]
  rfl

theorem parseDigits_natDecimal (n : Nat) :
    parseDigits (natDecimal n).toList = some n := by
  by_cases h : n = 0
  · subst h; decide
  · rw [natDecimal_toList_eq h, parseDigits]
    obtain ⟨m, rfl⟩ : ∃ m, n = m + 1 := ⟨n - 1, by omega⟩
    rw [if_neg (by
      intro he
      exact digitsRevAux_ne_nil (List.reverse_eq_nil_iff.1 (List.isEmpty_iff.1 he)))]
    rw [parseDigitsAux_digitsRevAux (m + 1) (m + 1) 0 (by omega) (le_refl _)]
    norm_num

theorem natDecimal_head_digit (n : Nat) {c : Char} {cs : List Char}
    (hl : (natDecimal n).toList = c :: cs) : ∃ d, d < 10 ∧ c = digitChar d := by
  by_cases h : n = 0
  · subst h
    have : c = '0' := by
      have h0 : (natDecimal 0).toList = ['0'] := rfl
      rw [h0] at hl
      exact (List.cons.inj hl).1.symm
    exact ⟨0, by omega, by rw [this]; decide⟩
  · rw [natDecimal_toList_eq h] at hl
    have hc : c ∈ (digitsRevAux n n).reverse := by rw [hl]; exact List.mem_cons_self _ _
    exact mem_digitsRevAux (List.mem_reverse.1 hc)

theorem parseI64_natDecimal {n : Nat} (h : n ≤ i64Max) :
    parseI64 (natDecimal n) = some (n : Int) := by
  have hp := parseDigits_natDecimal n
  cases hl : (natDecimal n).toList with
  | nil =>
    rw [hl] at hp
    cases hp
  | cons c cs =>
    obtain ⟨d, hd, hc⟩ := natDecimal_head_digit n hl
    obtain ⟨hm, hplus⟩ := digitChar_ne_sign hd
    rw [parseI64, hl, parseIntChars, if_neg (hc ▸ hm), if_neg (hc ▸ hplus)]
    rw [hl] at hp
    rw [hp]
    simp [h]

theorem parseI64_intDecimal {i : Int} (h0 : 0 ≤ i) (h : i ≤ (i64Max : Int)) :
    parseI64 (intDecimal i) = some i := by
  rw [intDecimal, if_neg (not_lt.2 h0)]
  have hn : i.toNat ≤ i64Max := by
    omega
  rw [parseI64_natDecimal hn, Int.toNat_of_nonneg h0]

theorem any_congr_on_mem {α : Type} {l : List α} {f g : α → Bool}
    (h : ∀ x ∈ l, f x = g x) : l.any f = l.any g := by
  induction l with
  | nil => rfl
  | cons a l ih =>
    rw [List.any_cons, List.any_cons, h a (List.mem_cons_self a l),
      ih (fun x hx => h x (List.mem_cons_of_mem a hx))]

theorem cgGo_spec (now : Int) :
    ∀ (ns : List String) (acc : Fs),
      ns.Nodup →
      (acc.map Prod.fst).Nodup →
      (∀ n ∈ ns, fileExtension n = some "expiry" →
        ∃ s, fsRead acc n = some s ∧ (parseI64 s).isSome) →
      (∀ n ∈ ns, fileExtension n = some "expiry" →
        ∀ s, fsRead acc n = some s → sweepTriggers now s = true →
          (fsRead acc (removeExtension n)).isSome ∧
          fileExtension (removeExtension n) ≠ some "expiry") →
      (cgGo now ns acc).2 = none ∧
      ∀ tgt, fsRead (cgGo now ns acc).1 tgt =
        if shouldDel now ns acc tgt then none else fsRead acc tgt := by
  intro ns
  induction ns with
  | nil =>
    intro acc _ _ _ _
    refine ⟨rfl, fun tgt => ?_⟩
    have hsd : shouldDel now [] acc tgt = false := rfl
    rw [hsd]
    rfl
  | cons n rest ih =>
    intro acc hns hacc hparse hstem
    have hn_notin : n ∉ rest := (List.nodup_cons.1 hns).1
    have hrest_nodup : rest.Nodup := (List.nodup_cons.1 hns).2
    by_cases hext : fileExtension n = some "expiry"
    · obtain ⟨s, hrd, hps⟩ := hparse n (List.mem_cons_self n rest) hext
      obtain ⟨ts, hts⟩ := Option.isSome_iff_exists.1 hps
      by_cases htp : tsPast now ts = true
      · -- expired entry: both files are removed, then the sweep continues
        have htrig : sweepTriggers now s = true := by
          rw [sweepTriggers, hts]
          exact htp
        obtain ⟨hstm, hstx⟩ :=
          hstem n (List.mem_cons_self n rest) hext s hrd htrig
        have hne_stem_n : removeExtension n ≠ n := fun he => hstx (by rw [he]; exact hext)
        have hrm1 : fsRemove acc (removeExtension n) =
            some (fsErase acc (removeExtension n)) := fsRemove_eq_some hstm
        have hrd1 : fsRead (fsErase acc (removeExtension n)) n = some s := by
          rw [fsRead_fsErase, if_neg (fun h => hne_stem_n h.symm)]
          exact hrd
        have hrm2 : fsRemove (fsErase acc (removeExtension n)) n =
            some (fsErase (fsErase acc (removeExtension n)) n) :=
          fsRemove_eq_some (by rw [hrd1]; rfl)
        have hcg : cgGo now (n :: rest) acc =
            cgGo now rest (fsErase (fsErase acc (removeExtension n)) n) := by
          simp only [cgGo, hext, hrd, hts, htp, hrm1, hrm2, if_true]
        have hacc2 : ((fsErase (fsErase acc (removeExtension n)) n).map Prod.fst).Nodup :=
          nodup_fsErase _ (nodup_fsErase _ hacc)
        have hread2 : ∀ m, m ≠ n → m ≠ removeExtension n →
            fsRead (fsErase (fsErase acc (removeExtension n)) n) m = fsRead acc m := by
          intro m h1 h2
          rw [fsRead_fsErase, if_neg h1, fsRead_fsErase, if_neg h2]
        have hparse2 : ∀ m ∈ rest, fileExtension m = some "expiry" →
            ∃ s2, fsRead (fsErase (fsErase acc (removeExtension n)) n) m = some s2 ∧
              (parseI64 s2).isSome := by
          intro m hm hxm
          obtain ⟨s2, hs2, hp2⟩ := hparse m (List.mem_cons_of_mem n hm) hxm
          have hmn : m ≠ n := fun he => hn_notin (he ▸ hm)
          have hms : m ≠ removeExtension n := fun he => hstx (he ▸ hxm)
          exact ⟨s2, by rw [hread2 m hmn hms]; exact hs2, hp2⟩
        have hstem2 : ∀ m ∈ rest, fileExtension m = some "expiry" →
            ∀ s2, fsRead (fsErase (fsErase acc (removeExtension n)) n) m = some s2 →
              sweepTriggers now s2 = true →
              (fsRead (fsErase (fsErase acc (removeExtension n)) n)
                (removeExtension m)).isSome ∧
              fileExtension (removeExtension m) ≠ some "expiry" := by
          intro m hm hxm s2 hs2 htr
          have hmn : m ≠ n := fun he => hn_notin (he ▸ hm)
          have hms : m ≠ removeExtension n := fun he => hstx (he ▸ hxm)
          have hs2acc : fsRead acc m = some s2 := by
            rw [← hread2 m hmn hms]
            exact hs2
          obtain ⟨ha, hb⟩ := hstem m (List.mem_cons_of_mem n hm) hxm s2 hs2acc htr
          have hrm_n : removeExtension m ≠ n := fun he => hb (by rw [he]; exact hext)
          have hrm_stem : removeExtension m ≠ removeExtension n := by
            intro he
            exact hmn (removeExtension_inj_on_expiry hxm hext he)
          exact ⟨by rw [hread2 _ hrm_n hrm_stem]; exact ha, hb⟩
        obtain ⟨hE, hR⟩ := ih (fsErase (fsErase acc (removeExtension n)) n)
          hrest_nodup hacc2 hparse2 hstem2
        refine ⟨by rw [hcg]; exact hE, ?_⟩
        intro tgt
        rw [hcg, hR tgt]
        by_cases htgt_n : tgt = n
        · have hsdr : shouldDel now (n :: rest) acc tgt = true := by
            rw [shouldDel, List.any_cons]
            simp [hext, hrd, htrig, htgt_n]
          have hnone : fsRead (fsErase (fsErase acc (removeExtension n)) n) tgt = none := by
            rw [htgt_n, fsRead_fsErase, if_pos rfl]
          rw [hsdr, if_pos rfl, hnone]
          split <;> rfl
        · by_cases htgt_s : tgt = removeExtension n
          · have hsdr : shouldDel now (n :: rest) acc tgt = true := by
              rw [shouldDel, List.any_cons]
              simp [hext, hrd, htrig, htgt_s]
            have hnone : fsRead (fsErase (fsErase acc (removeExtension n)) n) tgt = none := by
              rw [fsRead_fsErase, if_neg htgt_n, htgt_s, fsRead_fsErase, if_pos rfl]
            rw [hsdr, if_pos rfl, hnone]
            split <;> rfl
          · have hsd_eq : shouldDel now rest
                (fsErase (fsErase acc (removeExtension n)) n) tgt =
                shouldDel now (n :: rest) acc tgt := by
              rw [shouldDel, shouldDel, List.any_cons]
              have hfn : (decide (fileExtension n = some "expiry") &&
                  (match fsRead acc n with
                   | some s2 => sweepTriggers now s2
                   | none => false) &&
                  (decide (n = tgt) || decide (removeExtension n = tgt))) = false := by
                simp only [hrd, Bool.and_eq_false_iff, decide_eq_false_iff_not]
                right
                rw [Bool.or_eq_false_iff, decide_eq_false_iff_not,
                  decide_eq_false_iff_not]
                exact ⟨fun h => htgt_n h.symm, fun h => htgt_s h.symm⟩
              rw [hfn, Bool.false_or]
              apply any_congr_on_mem
              intro m hm
              by_cases hxm : fileExtension m = some "expiry"
              · have hmn : m ≠ n := fun he => hn_notin (he ▸ hm)
                have hms : m ≠ removeExtension n := fun he => hstx (he ▸ hxm)
                rw [hread2 m hmn hms]
              · simp [hxm]
            rw [hsd_eq, hread2 tgt htgt_n htgt_s]
      · -- valid but unexpired (or out-of-range) timestamp: nothing is removed
        have hfalse : tsPast now ts = false := by
          rwa [Bool.not_eq_true] at htp
        have htrig : sweepTriggers now s = false := by
          rw [sweepTriggers, hts]
          exact hfalse
        have hcg : cgGo now (n :: rest) acc = cgGo now rest acc := by
          simp only [cgGo, hext, hrd, hts, hfalse, if_true, Bool.false_eq_true,
            if_false]
        have hsd : ∀ tgt, shouldDel now (n :: rest) acc tgt =
            shouldDel now rest acc tgt := by
          intro tgt
          rw [shouldDel, shouldDel, List.any_cons]
          have hfn : (decide (fileExtension n = some "expiry") &&
              (match fsRead acc n with
               | some s2 => sweepTriggers now s2
               | none => false) &&
              (decide (n = tgt) || decide (removeExtension n = tgt))) = false := by
            simp [hrd, htrig]
          rw [hfn, Bool.false_or]
        obtain ⟨hE, hR⟩ := ih acc hrest_nodup hacc
          (fun m hm => hparse m (List.mem_cons_of_mem n hm))
          (fun m hm => hstem m (List.mem_cons_of_mem n hm))
        refine ⟨by rw [hcg]; exact hE, fun tgt => ?_⟩
        rw [hcg, hR tgt, hsd tgt]
    · -- not an expiry file: skipped entirely
      have hcg : cgGo now (n :: rest) acc = cgGo now rest acc := by
        simp only [cgGo, hext, if_false]
      have hsd : ∀ tgt, shouldDel now (n :: rest) acc tgt =
          shouldDel now rest acc tgt := by
        intro tgt
        rw [shouldDel, shouldDel, List.any_cons]
        have hfn : (decide (fileExtension n = some "expiry") &&
            (match fsRead acc n with
             | some s2 => sweepTriggers now s2
             | none => false) &&
            (decide (n = tgt) || decide (removeExtension n = tgt))) = false := by
          simp [hext]
        rw [hfn, Bool.false_or]
      obtain ⟨hE, hR⟩ := ih acc hrest_nodup hacc
        (fun m hm => hparse m (List.mem_cons_of_mem n hm))
        (fun m hm => hstem m (List.mem_cons_of_mem n hm))
      refine ⟨by rw [hcg]; exact hE, fun tgt => ?_⟩
      rw [hcg, hR tgt, hsd tgt]

theorem entryName_ne_expiryName {K : Type} (hashFn : K → Nat) (k : K) :
    entryName hashFn k ≠ expiryName hashFn k :=
  self_ne_append_expiry _

theorem fsRead_set_entryName {K V : Type} (c : Codec V) (hashFn : K → Nat) (k : K)
    (v : V) (ttl : Option Nat) (now : Int) (fs : Fs) :
    fsRead (set c hashFn k v ttl now fs) (entryName hashFn k) = some (c.encode v) := by
  cases ttl with
  | none =>
    simp only [set]
    rw [fsRead_fsWrite, if_pos rfl]
  | some d =>
    simp only [set]
    rw [fsRead_fsWrite, if_neg (entryName_ne_expiryName hashFn k), fsRead_fsWrite,
      if_pos rfl]

theorem fsRead_set_none_other {K V : Type} (c : Codec V) (hashFn : K → Nat) (k : K)
    (v : V) (now : Int) (fs : Fs) (b : String) (hb : b ≠ entryName hashFn k) :
    fsRead (set c hashFn k v none now fs) b = fsRead fs b := by
  simp only [set]
  rw [fsRead_fsWrite, if_neg hb]
  by_cases hr : (fsRead fs (entryName hashFn k)).isSome
  · rw [if_pos hr, fsRead_fsErase, if_neg hb]
  · rw [if_neg hr]

theorem fsRead_set_some_expiry {K V : Type} (c : Codec V) (hashFn : K → Nat) (k : K)
    (v : V) (d : Nat) (now : Int) (fs : Fs) :
    fsRead (set c hashFn k v (some d) now fs) (expiryName hashFn k) =
      some (intDecimal (now + (d : Int))) := by
  simp only [set]
  rw [fsRead_fsWrite, if_pos rfl]

theorem fsRead_set_some_other {K V : Type} (c : Codec V) (hashFn : K → Nat) (k : K)
    (v : V) (d : Nat) (now : Int) (fs : Fs) (b : String)
    (hb1 : b ≠ entryName hashFn k) (hb2 : b ≠ expiryName hashFn k) :
    fsRead (set c hashFn k v (some d) now fs) b = fsRead fs b := by
  simp only [set]
  rw [fsRead_fsWrite, if_neg hb2, fsRead_fsWrite, if_neg hb1]
  by_cases hr : (fsRead fs (entryName hashFn k)).isSome
  · rw [if_pos hr, fsRead_fsErase, if_neg hb1]
  · rw [if_neg hr]

theorem fsRead_invalidate_expiry {K : Type} (hashFn : K → Nat) (k : K) (fs : Fs) :
    fsRead (invalidate hashFn k fs) (expiryName hashFn k) = some "0" := by
  rw [invalidate, fsRead_fsWrite, if_pos rfl]
  rfl

theorem matchRead_eq_true_iff (now : Int) (acc : Fs) (m : String) :
    (match fsRead acc m with
     | some s => sweepTriggers now s
     | none => false) = true ↔
      ∃ s, fsRead acc m = some s ∧ sweepTriggers now s = true := by
  cases h : fsRead acc m <;> simp [h]

theorem shouldDel_eq_true_iff (now : Int) (ns : List String) (acc : Fs) (tgt : String) :
    shouldDel now ns acc tgt = true ↔
      ∃ m ∈ ns, fileExtension m = some "expiry" ∧
        (∃ s, fsRead acc m = some s ∧ sweepTriggers now s = true) ∧
        (m = tgt ∨ removeExtension m = tgt) := by
  rw [shouldDel, List.any_eq_true]
  simp only [Bool.and_eq_true, decide_eq_true_eq, Bool.or_eq_true,
    matchRead_eq_true_iff, and_assoc]

theorem get_set_none {K V : Type} (c : Codec V) (hashFn : K → Nat) (k : K)
    (v : V) (now t : Int) (fs : Fs)
    (hcodec : c.decode (c.encode v) = some v)
    (hnoexp : fsRead fs (expiryName hashFn k) = none) :
    get c hashFn k t (set c hashFn k v none now fs) = .ok (some v) := by
  have hexp : fsRead (set c hashFn k v none now fs) (expiryName hashFn k) = none := by
    rw [fsRead_set_none_other c hashFn k v now fs _
      (fun h => entryName_ne_expiryName hashFn k h.symm), hnoexp]
  have hent := fsRead_set_entryName c hashFn k v none now fs
  simp only [get, hexp, hent, hcodec]

/-- C1: the claim says `get` on a never-set key (no entry file, no expiry file)
returns the absent result `Ok(None)`, not an error, distinguishable from a
corruption error.  The code instead propagates the NotFound error of
`fs::read_to_string` on the missing entry file: evaluated on an empty cache
directory, `get` returns `Err(NotFound)`, which is not the absent result
(while unparseable stored bytes do give the distinct `Err(InvalidData)`). -/
theorem claim_c1_absence_code_eval :
    get boolCodec idHash 1 100 [] = Except.error IoError.notFound ∧
    get boolCodec idHash 1 100 [("1", "not json")] = Except.error IoError.invalidData ∧
    (Except.error IoError.notFound : Except IoError (Option Bool)) ≠ Except.ok none :=
  ⟨rfl, rfl, by simp⟩

/-- C2 counterexample: a directory whose first file is an expiry file with
unparseable content followed by a genuinely expired entry (`"7"`, expiry 0).
The claim says the corrupted expiry file does not abort reclamation of the
remaining expired entries; in fact the sweep returns `Err(InvalidData)` and
leaves the expired pair `"7"`/`"7.expiry"` unreclaimed. -/
theorem claim_c2_counterexample :
    (collect_garbage 100 [("9.expiry", "bogus"), ("7", "false"), ("7.expiry", "0")]).2 =
      some IoError.invalidData ∧
    fsRead (collect_garbage 100
      [("9.expiry", "bogus"), ("7", "false"), ("7.expiry", "0")]).1 "7" = some "false" ∧
    fsRead (collect_garbage 100
      [("9.expiry", "bogus"), ("7", "false"), ("7.expiry", "0")]).1 "7.expiry" = some "0" ∧
    sweepTriggers 100 "0" = true :=
  ⟨rfl, rfl, rfl, rfl⟩

/-- C2 amended: `collect_garbage` does not isolate per-entry parse failures;
when the first expiry file in directory order has unparseable content, the
sweep aborts immediately with an InvalidData error and reclaims nothing,
regardless of how many expired entries follow. -/
theorem claim_c2_amended (now : Int) (n s : String) (rest : Fs)
    (hx : fileExtension n = some "expiry") (hp : parseI64 s = none) :
    collect_garbage now ((n, s) :: rest) = ((n, s) :: rest, some IoError.invalidData) := by
  have hrd : fsRead ((n, s) :: rest) n = some s := by
    rw [fsRead_cons, if_pos rfl]
  simp only [collect_garbage, List.map_cons, cgGo, hx, hrd, hp, if_true]

/-- C2 amended, witness at the counterexample directory. -/
theorem claim_c2_amended_witness :
    collect_garbage 100 [("9.expiry", "bogus"), ("7", "false"), ("7.expiry", "0")] =
      ([("9.expiry", "bogus"), ("7", "false"), ("7.expiry", "0")],
        some IoError.invalidData) :=
  claim_c2_amended 100 "9.expiry" "bogus" [("7", "false"), ("7.expiry", "0")]
    (by decide) (by decide)

/-- C3: for every key and every value the codec round-trips, `set(K, V, None)`
followed by `get(K)` returns V unchanged, provided the directory holds no
leftover expiry file for the key (a TTL-less `set` never writes one; the
leftover-expiry situation is the separately documented carry-over of C8). -/
theorem claim_c3_roundtrip {K V : Type} (c : Codec V) (hashFn : K → Nat) (k : K)
    (v : V) (now t : Int) (fs : Fs)
    (hcodec : c.decode (c.encode v) = some v)
    (hnoexp : fsRead fs (expiryName hashFn k) = none) :
    get c hashFn k t (set c hashFn k v none now fs) = .ok (some v) :=
  get_set_none c hashFn k v now t fs hcodec hnoexp

/-- C3 witness: set/get round-trip of `true` under key 3 in a fresh directory. -/
theorem claim_c3_witness :
    get boolCodec idHash 3 60 (set boolCodec idHash 3 true none 50 []) =
      Except.ok (some true) :=
  claim_c3_roundtrip boolCodec idHash 3 true 50 60 [] (by rfl) (by rfl)

/-- C4: after `set(K, V, ttl=Δ)` at a sane epoch-nonnegative, chrono-representable
time, `get(K)` returns V at any time strictly before `now + Δ` and the absent
result at any time strictly after; moreover, whenever the stored expiry
timestamp parses, is chrono-representable and lies in the past, `get` returns
the absent result on any directory whatsoever (independent of the entry file,
which it never consults). -/
theorem claim_c4_ttl_expiry {K V : Type} (c : Codec V) (hashFn : K → Nat) (k : K)
    (v : V) (d : Nat) (now t : Int) (fs : Fs)
    (hcodec : c.decode (c.encode v) = some v)
    (h0 : 0 ≤ now) (hmax : now + (d : Int) ≤ tsMax) :
    (t < now + (d : Int) →
      get c hashFn k t (set c hashFn k v (some d) now fs) = .ok (some v)) ∧
    (now + (d : Int) < t →
      get c hashFn k t (set c hashFn k v (some d) now fs) = .ok none) ∧
    (∀ (gs : Fs) (s : String) (ts : Int),
      fsRead gs (expiryName hashFn k) = some s → parseI64 s = some ts →
      tsInRange ts = true → ts < t → get c hashFn k t gs = .ok none) := by
  have hexp := fsRead_set_some_expiry c hashFn k v d now fs
  have hent := fsRead_set_entryName c hashFn k v (some d) now fs
  have hd0 : (0 : Int) ≤ (d : Int) := Int.ofNat_nonneg d
  have hparse : parseI64 (intDecimal (now + (d : Int))) = some (now + (d : Int)) := by
    apply parseI64_intDecimal (by omega)
    have h1 : tsMax ≤ (i64Max : Int) := by decide
    omega
  have hrange : tsInRange (now + (d : Int)) = true := by
    rw [tsInRange, decide_eq_true_eq]
    have h2 : tsMin ≤ 0 := by decide
    exact ⟨by omega, hmax⟩
  refine ⟨?_, ?_, ?_⟩
  · intro ht
    have htp : tsPast t (now + (d : Int)) = false := by
      rw [tsPast]
      have hlt : decide (now + (d : Int) < t) = false := by
        rw [decide_eq_false_iff_not]
        omega
      rw [hlt, Bool.and_false]
    simp only [get, hexp, hparse, htp, hent, hcodec, Bool.false_eq_true, if_false]
  · intro ht
    have htp : tsPast t (now + (d : Int)) = true := by
      rw [tsPast, hrange, Bool.true_and, decide_eq_true_eq]
      exact ht
    simp only [get, hexp, hparse, htp, if_true]
  · intro gs s ts hr hp hin hlt
    have htp : tsPast t ts = true := by
      rw [tsPast, hin, Bool.true_and, decide_eq_true_eq]
      exact hlt
    simp only [get, hr, hp, htp, if_true]

/-- C4 witness: key 2 set at time 100 with TTL 10 reads back `true` at time 105
and absent at time 120. -/
theorem claim_c4_witness :
    get boolCodec idHash 2 105 (set boolCodec idHash 2 true (some 10) 100 []) =
      Except.ok (some true) ∧
    get boolCodec idHash 2 120 (set boolCodec idHash 2 true (some 10) 100 []) =
      Except.ok none :=
  ⟨(claim_c4_ttl_expiry boolCodec idHash 2 true 10 100 105 []
      (by rfl) (by decide) (by decide)).1 (by decide),
   (claim_c4_ttl_expiry boolCodec idHash 2 true 10 100 120 []
      (by rfl) (by decide) (by decide)).2.1 (by decide)⟩

/-- C5: `set(K, V1)` then `set(K, V2)` (both TTL-less) then `get(K)` returns V2
and never V1 — the second write replaces the entry file entirely — again
provided no leftover expiry file exists for the key. -/
theorem claim_c5_overwrite {K V : Type} (c : Codec V) (hashFn : K → Nat) (k : K)
    (v1 v2 : V) (n1 n2 t : Int) (fs : Fs)
    (hcodec : c.decode (c.encode v2) = some v2)
    (hnoexp : fsRead fs (expiryName hashFn k) = none) :
    get c hashFn k t (set c hashFn k v2 none n2 (set c hashFn k v1 none n1 fs)) =
      .ok (some v2) ∧
    (v1 ≠ v2 →
      get c hashFn k t (set c hashFn k v2 none n2 (set c hashFn k v1 none n1 fs)) ≠
        .ok (some v1)) := by
  have hnoexp1 : fsRead (set c hashFn k v1 none n1 fs) (expiryName hashFn k) = none := by
    rw [fsRead_set_none_other c hashFn k v1 n1 fs _
      (fun h => entryName_ne_expiryName hashFn k h.symm), hnoexp]
  have h1 := get_set_none c hashFn k v2 n2 t _ hcodec hnoexp1
  refine ⟨h1, fun hne => ?_⟩
  rw [h1]
  intro h
  exact hne (Option.some.inj (Except.ok.inj h)).symm

/-- C5 witness: overwriting `true` with `false` under key 9 reads back `false`. -/
theorem claim_c5_witness :
    get boolCodec idHash 9 30
      (set boolCodec idHash 9 false none 20 (set boolCodec idHash 9 true none 10 [])) =
      Except.ok (some false) :=
  (claim_c5_overwrite boolCodec idHash 9 true false 10 20 30 [] (by rfl) (by rfl)).1

/-- C6: every `invalidate(K)` write puts the epoch-origin timestamp string "0"
at K's expiry path, creating or overwriting it; any positive number of
consecutive calls (on any prior directory state, including one where K was
never set, where the call still succeeds) leaves `get(K)` at any post-epoch
time returning the absent result. -/
theorem claim_c6_invalidate {K V : Type} (c : Codec V) (hashFn : K → Nat) (k : K)
    (m : Nat) (hm : 0 < m) (fs : Fs) (t : Int) (ht : 0 < t) :
    fsRead ((fun s => invalidate hashFn k s)^[m] fs) (expiryName hashFn k) =
      some "0" ∧
    get c hashFn k t ((fun s => invalidate hashFn k s)^[m] fs) = .ok none := by
  obtain ⟨j, rfl⟩ : ∃ j, m = j + 1 := ⟨m - 1, by omega⟩
  have hread : fsRead ((fun s => invalidate hashFn k s)^[j + 1] fs)
      (expiryName hashFn k) = some "0" := by
    rw [Function.iterate_succ_apply']
    exact fsRead_invalidate_expiry hashFn k _
  refine ⟨hread, ?_⟩
  have hp : parseI64 "0" = some 0 := rfl
  have htp : tsPast t 0 = true := by
    have h1 : tsInRange 0 = true := by decide
    rw [tsPast, h1, Bool.true_and, decide_eq_true_eq]
    exact ht
  simp only [get, hread, hp, htp, if_true]

/-- C6 witness: two consecutive invalidations of never-set key 4 leave "0" in
the expiry file and `get` at time 5 absent. -/
theorem claim_c6_witness :
    fsRead ((fun s => invalidate idHash 4 s)^[2] []) (expiryName idHash 4) =
      some "0" ∧
    get boolCodec idHash 4 5 ((fun s => invalidate idHash 4 s)^[2] []) =
      Except.ok none :=
  claim_c6_invalidate boolCodec idHash 4 2 (by decide) [] 5 (by decide)

/-- C8: a TTL-less `set` never writes or touches the key's expiry path (frame
over arbitrary directories), so after `set(K, V1, ttl=Δ)` followed by a
re-`set(K, V2, None)`, the old expiry file survives and `get(K)` after the old
deadline still returns absent — the intended-to-be-permanent entry expires. -/
theorem claim_c8_stale_expiry {K V : Type} (c : Codec V) (hashFn : K → Nat) (k : K)
    (v1 v2 : V) (d : Nat) (n1 n2 t : Int) (fs : Fs)
    (h0 : 0 ≤ n1) (hmax : n1 + (d : Int) ≤ tsMax) (hafter : n1 + (d : Int) < t) :
    (∀ gs : Fs, fsRead (set c hashFn k v2 none n2 gs) (expiryName hashFn k) =
      fsRead gs (expiryName hashFn k)) ∧
    get c hashFn k t
      (set c hashFn k v2 none n2 (set c hashFn k v1 (some d) n1 fs)) = .ok none := by
  have hframe : ∀ gs : Fs,
      fsRead (set c hashFn k v2 none n2 gs) (expiryName hashFn k) =
        fsRead gs (expiryName hashFn k) := fun gs =>
    fsRead_set_none_other c hashFn k v2 n2 gs _
      (fun h => entryName_ne_expiryName hashFn k h.symm)
  refine ⟨hframe, ?_⟩
  have hexp : fsRead (set c hashFn k v2 none n2 (set c hashFn k v1 (some d) n1 fs))
      (expiryName hashFn k) = some (intDecimal (n1 + (d : Int))) := by
    rw [hframe, fsRead_set_some_expiry]
  have hparse : parseI64 (intDecimal (n1 + (d : Int))) = some (n1 + (d : Int)) := by
    apply parseI64_intDecimal (by omega)
    have h1 : tsMax ≤ (i64Max : Int) := by decide
    omega
  have htp : tsPast t (n1 + (d : Int)) = true := by
    have h1 : tsInRange (n1 + (d : Int)) = true := by
      rw [tsInRange, decide_eq_true_eq]
      have h2 : tsMin ≤ 0 := by decide
      exact ⟨by omega, hmax⟩
    rw [tsPast, h1, Bool.true_and, decide_eq_true_eq]
    exact hafter
  simp only [get, hexp, hparse, htp, if_true]

/-- C8 witness: key 6 set with TTL 10 at time 100, re-set without TTL at time
150, reads absent at time 200. -/
theorem claim_c8_witness :
    get boolCodec idHash 6 200 (set boolCodec idHash 6 false none 150
      (set boolCodec idHash 6 true (some 10) 100 [])) = Except.ok none :=
  (claim_c8_stale_expiry boolCodec idHash 6 true false 10 100 150 200 []
    (by decide) (by decide) (by decide)).2

/-- C7: on a well-formed cache directory (distinct names; every expiry file
parseable; every expired expiry file has its entry file present, itself not an
expiry file), `collect_garbage` succeeds and deletes exactly the expired pairs:
both files of every entry whose valid timestamp has passed become unreadable,
expiry files with unexpired (future or unrepresentable) timestamps keep their
content, and every non-expiry file that is not the entry of some expired pair
is untouched. -/
theorem claim_c7_gc_reclaims (now : Int) (fs : Fs)
    (hnd : (fs.map Prod.fst).Nodup)
    (hparse : ∀ p ∈ fs, fileExtension p.1 = some "expiry" → (parseI64 p.2).isSome)
    (hstem : ∀ p ∈ fs, fileExtension p.1 = some "expiry" →
      sweepTriggers now p.2 = true →
      (fsRead fs (removeExtension p.1)).isSome ∧
      fileExtension (removeExtension p.1) ≠ some "expiry") :
    (collect_garbage now fs).2 = none ∧
    (∀ p ∈ fs, fileExtension p.1 = some "expiry" → sweepTriggers now p.2 = true →
      fsRead (collect_garbage now fs).1 p.1 = none ∧
      fsRead (collect_garbage now fs).1 (removeExtension p.1) = none) ∧
    (∀ p ∈ fs, fileExtension p.1 = some "expiry" → sweepTriggers now p.2 = false →
      fsRead (collect_garbage now fs).1 p.1 = some p.2) ∧
    (∀ p ∈ fs, fileExtension p.1 ≠ some "expiry" →
      (∀ q ∈ fs, fileExtension q.1 = some "expiry" → sweepTriggers now q.2 = true →
        removeExtension q.1 ≠ p.1) →
      fsRead (collect_garbage now fs).1 p.1 = some p.2) := by
  have hmemread : ∀ p ∈ fs, fsRead fs p.1 = some p.2 := by
    intro p hp
    exact fsRead_eq_some_of_mem hnd (by rw [Prod.mk.eta]; exact hp)
  have hparse2 : ∀ n ∈ fs.map Prod.fst, fileExtension n = some "expiry" →
      ∃ s, fsRead fs n = some s ∧ (parseI64 s).isSome := by
    intro n hn hx
    rcases List.mem_map.1 hn with ⟨p, hp, rfl⟩
    exact ⟨p.2, hmemread p hp, hparse p hp hx⟩
  have hstem2 : ∀ n ∈ fs.map Prod.fst, fileExtension n = some "expiry" →
      ∀ s, fsRead fs n = some s → sweepTriggers now s = true →
        (fsRead fs (removeExtension n)).isSome ∧
        fileExtension (removeExtension n) ≠ some "expiry" := by
    intro n _ hx s hsread htr
    exact hstem (n, s) (mem_of_fsRead_eq_some hsread) hx htr
  obtain ⟨hE, hR⟩ := cgGo_spec now (fs.map Prod.fst) fs hnd hnd hparse2 hstem2
  simp only [collect_garbage]
  refine ⟨hE, ?_, ?_, ?_⟩
  · intro p hp hx htr
    have hsd1 : shouldDel now (fs.map Prod.fst) fs p.1 = true :=
      (shouldDel_eq_true_iff now _ fs p.1).2
        ⟨p.1, List.mem_map_of_mem Prod.fst hp, hx,
          ⟨p.2, hmemread p hp, htr⟩, Or.inl rfl⟩
    have hsd2 : shouldDel now (fs.map Prod.fst) fs (removeExtension p.1) = true :=
      (shouldDel_eq_true_iff now _ fs (removeExtension p.1)).2
        ⟨p.1, List.mem_map_of_mem Prod.fst hp, hx,
          ⟨p.2, hmemread p hp, htr⟩, Or.inr rfl⟩
    exact ⟨by rw [hR p.1, if_pos hsd1], by rw [hR (removeExtension p.1), if_pos hsd2]⟩
  · intro p hp hx htr
    have hns : ¬ shouldDel now (fs.map Prod.fst) fs p.1 = true := by
      rw [shouldDel_eq_true_iff]
      rintro ⟨m, _, hmx, ⟨s, hms, hstrig⟩, h1 | h1⟩
      · rw [h1, hmemread p hp] at hms
        rw [← Option.some.inj hms] at hstrig
        rw [htr] at hstrig
        cases hstrig
      · exact (hstem (m, s) (mem_of_fsRead_eq_some hms) hmx hstrig).2
          (by rw [h1]; exact hx)
    rw [hR p.1, if_neg hns]
    exact hmemread p hp
  · intro p hp hx huntouched
    have hns : ¬ shouldDel now (fs.map Prod.fst) fs p.1 = true := by
      rw [shouldDel_eq_true_iff]
      rintro ⟨m, _, hmx, ⟨s, hms, hstrig⟩, h1 | h1⟩
      · exact hx (h1 ▸ hmx)
      · exact huntouched (m, s) (mem_of_fsRead_eq_some hms) hmx hstrig h1
    rw [hR p.1, if_neg hns]
    exact hmemread p hp

/-- C7 witness: at time 1000, sweeping a directory with an expired pair
("1"/"1.expiry" at timestamp 0), an unexpired pair ("2"/"2.expiry" at
timestamp 9999999999) and a plain file "3" deletes exactly the expired pair. -/
theorem claim_c7_witness :
    (collect_garbage 1000
      [("1", "false"), ("1.expiry", "0"), ("2", "true"),
        ("2.expiry", "9999999999"), ("3", "x")]).2 = none ∧
    fsRead (collect_garbage 1000
      [("1", "false"), ("1.expiry", "0"), ("2", "true"),
        ("2.expiry", "9999999999"), ("3", "x")]).1 "1.expiry" = none ∧
    fsRead (collect_garbage 1000
      [("1", "false"), ("1.expiry", "0"), ("2", "true"),
        ("2.expiry", "9999999999"), ("3", "x")]).1 "1" = none ∧
    fsRead (collect_garbage 1000
      [("1", "false"), ("1.expiry", "0"), ("2", "true"),
        ("2.expiry", "9999999999"), ("3", "x")]).1 "2.expiry" = some "9999999999" ∧
    fsRead (collect_garbage 1000
      [("1", "false"), ("1.expiry", "0"), ("2", "true"),
        ("2.expiry", "9999999999"), ("3", "x")]).1 "2" = some "true" ∧
    fsRead (collect_garbage 1000
      [("1", "false"), ("1.expiry", "0"), ("2", "true"),
        ("2.expiry", "9999999999"), ("3", "x")]).1 "3" = some "x" := by
  have h := claim_c7_gc_reclaims 1000
    [("1", "false"), ("1.expiry", "0"), ("2", "true"),
      ("2.expiry", "9999999999"), ("3", "x")]
    (by decide) (by decide) (by decide)
  have hexp := h.2.1 ("1.expiry", "0") (by decide) (by decide) (by decide)
  exact ⟨h.1, hexp.1, hexp.2,
    h.2.2.1 ("2.expiry", "9999999999") (by decide) (by decide) (by decide),
    h.2.2.2 ("2", "true") (by decide) (by decide) (by decide),
    h.2.2.2 ("3", "x") (by decide) (by decide) (by decide)⟩

/-- C9: when the first file in directory order is an expiry file whose valid
timestamp has passed but whose entry file is missing (e.g. after `invalidate`
on a never-set key), `collect_garbage` tries to delete the missing entry file
first, so the sweep aborts with a NotFound storage error, deletes nothing, and
in particular leaves the orphan expiry file in place. -/
theorem claim_c9_orphan_expiry (now : Int) (n s : String) (rest : Fs) (ts : Int)
    (hx : fileExtension n = some "expiry")
    (hp : parseI64 s = some ts) (htp : tsPast now ts = true)
    (hmiss : fsRead ((n, s) :: rest) (removeExtension n) = none) :
    collect_garbage now ((n, s) :: rest) = ((n, s) :: rest, some IoError.notFound) ∧
    fsRead ((n, s) :: rest) n = some s := by
  have hrd : fsRead ((n, s) :: rest) n = some s := by
    rw [fsRead_cons, if_pos rfl]
  have hrm : fsRemove ((n, s) :: rest) (removeExtension n) = none :=
    fsRemove_eq_none hmiss
  refine ⟨?_, hrd⟩
  simp only [collect_garbage, List.map_cons, cgGo, hx, hrd, hp, htp, hrm, if_true]

/-- C9 witness: the orphan expiry file left by `invalidate` on never-set key 5
makes the sweep fail with NotFound and survive it. -/
theorem claim_c9_witness :
    collect_garbage 100 [("5.expiry", "0")] =
      ([("5.expiry", "0")], some IoError.notFound) ∧
    fsRead [("5.expiry", "0")] "5.expiry" = some "0" :=
  claim_c9_orphan_expiry 100 "5.expiry" "0" [] 0
    (by decide) (by decide) (by decide) (by decide)

/-- C10: an expiry file whose content parses as an i64 that chrono cannot
represent is silently treated as "never expires" by both readers: `get`
proceeds past the guard and returns the stored value with no corruption error,
and `collect_garbage` leaves both files of such a pair untouched and
reports no error. -/
theorem claim_c10_out_of_range {K V : Type} (c : Codec V) (hashFn : K → Nat)
    (k : K) (t : Int) (s : String) (ts : Int)
    (hp : parseI64 s = some ts) (hrange : tsInRange ts = false) :
    (∀ (gs : Fs) (body : String) (v : V),
      fsRead gs (expiryName hashFn k) = some s →
      fsRead gs (entryName hashFn k) = some body →
      c.decode body = some v →
      get c hashFn k t gs = .ok (some v)) ∧
    (∀ en body : String, en ≠ "" → fileExtension en ≠ some "expiry" →
      collect_garbage t [(en, body), (en ++ ".expiry", s)] =
        ([(en, body), (en ++ ".expiry", s)], none)) := by
  have htp : tsPast t ts = false := by
    rw [tsPast, hrange, Bool.false_and]
  constructor
  · intro gs body v hexp hent hdec
    simp only [get, hexp, hp, htp, Bool.false_eq_true, if_false, hent, hdec]
  · intro en body hne hnx
    obtain ⟨hxe, _⟩ := fileExtension_append_expiry hne
    have hrd : fsRead [(en, body), (en ++ ".expiry", s)] (en ++ ".expiry") =
        some s := by
      rw [fsRead_cons, if_neg (self_ne_append_expiry en), fsRead_cons, if_pos rfl]
    simp only [collect_garbage, List.map_cons, List.map_nil, cgGo, hnx, hxe, hrd,
      hp, htp, Bool.false_eq_true, if_false, if_true]

/-- C10 witness: timestamp `i64::MAX` is out of chrono range; `get` returns the
stored `true` for key 8 and the sweep leaves the pair intact with no error. -/
theorem claim_c10_witness :
    get boolCodec idHash 8 100
      [("8", "true"), ("8.expiry", "9223372036854775807")] =
      Except.ok (some true) ∧
    collect_garbage 100 [("8", "true"), ("8" ++ ".expiry", "9223372036854775807")] =
      ([("8", "true"), ("8" ++ ".expiry", "9223372036854775807")], none) :=
  have h := claim_c10_out_of_range boolCodec idHash 8 100 "9223372036854775807"
    9223372036854775807 (by decide) (by decide)
  ⟨h.1 [("8", "true"), ("8.expiry", "9223372036854775807")] "true" true
      (by decide) (by decide) (by rfl),
   h.2 "8" "true" (by decide) (by decide)⟩

end SimpleCache
